import Mathlib

/-!
Verification of the `rename_mod_time` tool (src/src/bin/rename_mod_time/).

Strings are embedded as `List Char` (Rust `String` holds UTF-8; byte
positions used by the source — `rfind`, slicing — always fall on the
ASCII character `'.'`, so splitting at the last `'.'` by character index
yields exactly the same two substrings as the source's byte slicing).
Byte lengths (Rust `String::len`) are modelled by `utf8Len`.
Fallible paths (`todo!`, `unwrap` panics) are modelled with `Option`.
-/

namespace RenameModTime

/-- Strings of the program, as lists of Unicode scalar values. -/
abbrev Str := List Char

/-- Number of bytes of one character in UTF-8. -/
def utf8CharLen (c : Char) : Nat :=
  if c.toNat < 0x80 then 1
  else if c.toNat < 0x800 then 2
  else if c.toNat < 0x10000 then 3
  else 4

/-- Rust `String::len`: the UTF-8 byte length of a string. -/
def utf8Len (s : Str) : Nat := (s.map utf8CharLen).sum

/-- Embeds `CHINESE_UNICODE_RANGE` from ray_file.rs: the six inclusive
code-point ranges of CJK Unified Ideograph blocks. -/
def CHINESE_UNICODE_RANGE : List (Nat × Nat) :=
  [ (0x4E00, 0x9FFF),
    (0x3400, 0x4DBF),
    (0x20000, 0x2A6DF),
    (0x2A700, 0x2EE5F),
    (0x30000, 0x323AF),
    (0xF900, 0xFAFF) ]

/-- Embeds the range test `CHINESE_UNICODE_RANGE.iter().any(|r| c as u32 >= r[0] && c as u32 <= r[1])`. -/
def inChineseRange (c : Char) : Bool :=
  CHINESE_UNICODE_RANGE.any (fun r => decide (r.1 ≤ c.toNat ∧ c.toNat ≤ r.2))

/-- Per-character summand of `RayFile::get_chinese_length_offset_value`:
ASCII contributes 0, then a CJK-range member contributes 1, anything else 0. -/
def chineseCharOffset (c : Char) : Nat :=
  if c.toNat ≤ 0x7F then 0
  else if inChineseRange c then 1
  else 0

/-- Embeds the struct `RayFile`: a file name split into base name and extension. -/
structure RayFile where
  f_name : Str
  f_ext : Str
deriving DecidableEq, Repr

/-- Index of the last `'.'` in a string (Rust `str::rfind(".")`; byte and
character indices agree here because every earlier character boundary is
preserved and the result is only used to split at that dot). -/
def rfindDot : Str → Option Nat
  | [] => none
  | c :: rest =>
    match rfindDot rest with
    | some i => some (i + 1)
    | none => if c = '.' then some 0 else none

/-- Embeds `RayFile::from`.  `none` models the two panicking paths of the
source: the `todo!` on a directory separator and the `unwrap` of
`rfind(".")` when no dot exists in a non-dotfile name. -/
def RayFile.fromName (s : Str) : Option RayFile :=
  if '/' ∈ s then none
  else if s.head? = some '.' then some ⟨s, []⟩
  else
    match rfindDot s with
    | none => none
    | some p => some ⟨s.take p, s.drop (p + 1)⟩

/-- Embeds `impl Display for RayFile`: base name alone when the extension
is empty, otherwise base name, a dot, and the extension. -/
def RayFile.toDisplay (f : RayFile) : Str :=
  if f.f_ext = [] then f.f_name else f.f_name ++ '.' :: f.f_ext

/-- Embeds `RayFile::full_len`: byte length of the base name plus, when
the extension is non-empty, 1 for the dot plus the extension's byte length. -/
def RayFile.full_len (f : RayFile) : Nat :=
  utf8Len f.f_name + if f.f_ext = [] then 0 else 1 + utf8Len f.f_ext

/-- Embeds `RayFile::ext_len`. -/
def RayFile.ext_len (f : RayFile) : Nat := utf8Len f.f_ext

/-- Embeds `RayFile::get_chinese_length_offset_value`: sums the
per-character offsets over the base name. -/
def RayFile.get_chinese_length_offset_value (f : RayFile) : Nat :=
  (f.f_name.map chineseCharOffset).sum

/-- Maximum of a list of naturals (Rust `Iterator::max` on a non-empty
list; the source `unwrap`s, so callers guard non-emptiness). -/
def listMax (l : List Nat) : Nat := l.foldr max 0

/-- Embeds the struct `RayFileList`: the batch of entries, the time-format
pattern, and the two cached column widths. -/
structure RayFileList where
  file_list : List RayFile
  time_format : Str
  max_len_input : Nat
  max_len_output : Nat
deriving DecidableEq, Repr

/-- Embeds `RayFileList::from`.  `timeStrLen` stands for the byte length of
`Local::now().format(&time_format).to_string()`, an environment input.
`none` models the panics: a failing `RayFile::from`, or the `unwrap` of
`max()` on an empty input list. -/
def RayFileList.fromNames (input : List Str) (tf : Str) (timeStrLen : Nat) :
    Option RayFileList :=
  match input.mapM RayFile.fromName with
  | none => none
  | some fl =>
    if fl = [] then none
    else
      some
        { file_list := fl
          time_format := tf
          max_len_input := max 3 (listMax (fl.map RayFile.full_len))
          max_len_output := max 3 (timeStrLen + 1 + listMax (fl.map RayFile.ext_len)) }

/-- Embeds `RayFile::get_renamed_instance` on its success path.  `mtime`
stands for `fs::metadata(self.to_string()).modified()` (keyed by the
display name the source passes to `fs::metadata`) and `format` for
chrono's `DateTime::format(...).to_string()`; both are environment
parameters of the shallow embedding. -/
def RayFile.get_renamed_instance (mtime : Str → Nat) (format : Str → Nat → Str)
    (time_format : Str) (f : RayFile) : RayFile :=
  { f_name := format time_format (mtime f.toDisplay)
    f_ext := f.f_ext }

/-- Embeds `RayFileList::get_renamed_file_list`: maps
`get_renamed_instance` over the stored entries, building a fresh list. -/
def RayFileList.get_renamed_file_list (mtime : Str → Nat) (format : Str → Nat → Str)
    (b : RayFileList) : List RayFile :=
  b.file_list.map (RayFile.get_renamed_instance mtime format b.time_format)

/-- Rust `char::is_whitespace` (the Unicode White_Space property), used by
`str::trim`. -/
def isRustWhitespace (c : Char) : Bool :=
  let n := c.toNat
  decide (n = 0x20 ∨ (0x09 ≤ n ∧ n ≤ 0x0D) ∨ n = 0x85 ∨ n = 0xA0 ∨
    n = 0x1680 ∨ (0x2000 ≤ n ∧ n ≤ 0x200A) ∨ n = 0x2028 ∨ n = 0x2029 ∨
    n = 0x202F ∨ n = 0x205F ∨ n = 0x3000)

/-- Rust `str::trim`: removes whitespace from both ends. -/
def rustTrim (s : Str) : Str :=
  (s.dropWhile isRustWhitespace).reverse.dropWhile isRustWhitespace |>.reverse

/-- The set of strings matched by the anchored regex `^[yY]?$` from
`wait_accepting_prompt`: empty, `y`, or `Y`. -/
def matchesYesRegex (s : Str) : Bool := s = [] || s = ['y'] || s = ['Y']

/-- The set of strings matched by the anchored regex `^[nN]$` from
`wait_accepting_prompt`: `n` or `N`. -/
def matchesNoRegex (s : Str) : Bool := s = ['n'] || s = ['N']

/-- The prompt text printed by each iteration of `wait_accepting_prompt`. -/
def promptStr : Str := "Accept the above renaming? [Y/n] ".toList

/-- Embeds `RayFileList::wait_accepting_prompt`.  The input stream is the
list of lines standard input will yield; at end of input `read_line`
returns an empty buffer, whose trim matches `^[yY]?$`, so the loop
terminates.  Returns the decision and the prompts printed. -/
def wait_accepting_prompt : List Str → Bool × List Str
  | [] => (true, [promptStr])
  | line :: rest =>
    let t := rustTrim line
    if matchesYesRegex t then (true, [promptStr])
    else if matchesNoRegex t then (false, [promptStr])
    else
      let r := wait_accepting_prompt rest
      (r.1, promptStr :: r.2)

/-- Rust string formatting `{:w$}` for a `str`: left-justified, padded on
the right with spaces to `w` characters (`Formatter::pad` counts chars). -/
def padLeftJustify (w : Nat) (s : Str) : Str :=
  s ++ List.replicate (w - s.length) ' '

/-- Rust string formatting `{:^w$}`: centred, extra space on the right. -/
def padCenter (w : Nat) (s : Str) : Str :=
  let pad := w - s.length
  List.replicate (pad / 2) ' ' ++ s ++ List.replicate (pad - pad / 2) ' '

/-- Embeds `RayFileList::print_renaming_header`: one line with `old` and
`new` centred in the two column widths. -/
def RayFileList.print_renaming_header (b : RayFileList) : List Str :=
  [padCenter b.max_len_input "old".toList ++ ' ' :: padCenter b.max_len_output "new".toList]

/-- Embeds `RayFileList::print_renaming_operations`: one line per pair —
the old display name left-justified in a field of `max_len_input` minus
the entry's wide-character offset, a space, then the new display name. -/
def RayFileList.print_renaming_operations (b : RayFileList) (newList : List RayFile) :
    List Str :=
  (b.file_list.zip newList).map (fun p =>
    padLeftJustify (b.max_len_input - p.1.get_chinese_length_offset_value) p.1.toDisplay
      ++ ' ' :: p.2.toDisplay)

/-- Observable effects of one run of `rename_with_modification_time`:
the text chunks written to standard output, in order, and the
`fs::rename(old, new)` operations performed, in order. -/
structure RunResult where
  output : List Str
  renames : List (Str × Str)
deriving DecidableEq, Repr

/-- The `"Nothing done."` line. -/
def nothingDoneStr : Str := "Nothing done.".toList

/-- Embeds `RayFileList::rename_with_modification_time`: computes the
renamed list, prints the header and rows, optionally runs the
confirmation gate, and either stops with `Nothing done.` or performs the
renames pairwise in order. -/
def RayFileList.rename_with_modification_time (mtime : Str → Nat)
    (format : Str → Nat → Str) (b : RayFileList) (to_print_prompt : Bool)
    (stdinLines : List Str) : RunResult :=
  let newList := b.get_renamed_file_list mtime format
  let table := b.print_renaming_header ++ b.print_renaming_operations newList
  if to_print_prompt then
    let g := wait_accepting_prompt stdinLines
    if g.1 then
      { output := table ++ g.2
        renames := (b.file_list.zip newList).map (fun p => (p.1.toDisplay, p.2.toDisplay)) }
    else
      { output := table ++ g.2 ++ [nothingDoneStr], renames := [] }
  else
    { output := table
      renames := (b.file_list.zip newList).map (fun p => (p.1.toDisplay, p.2.toDisplay)) }

/-! ## Helper lemmas -/

/-- Byte length distributes over append. -/
lemma utf8Len_append (a b : Str) : utf8Len (a ++ b) = utf8Len a + utf8Len b := by
  simp [utf8Len]

/-- Every character occupies at least one byte. -/
lemma one_le_utf8CharLen (c : Char) : 1 ≤ utf8CharLen c := by
  unfold utf8CharLen
  repeat' split
  all_goals omega

/-- If `rfindDot` finds nothing, the string holds no dot. -/
lemma not_mem_of_rfindDot_eq_none : ∀ {s : Str}, rfindDot s = none → '.' ∉ s := by
  intro s
  induction s with
  | nil => intro _; simp
  | cons c rest ih =>
    intro h
    unfold rfindDot at h
    cases hr : rfindDot rest with
    | some i => rw [hr] at h; simp at h
    | none =>
      rw [hr] at h
      by_cases hc : c = '.'
      · rw [if_pos hc] at h; simp at h
      · intro hm
        rcases List.mem_cons.mp hm with he | hm2
        · exact hc he.symm
        · exact ih hr hm2

/-- Splitting at the index returned by `rfindDot` reassembles the string,
and the index is in range. -/
lemma rfindDot_split : ∀ {s : Str} {p : Nat}, rfindDot s = some p →
    s.take p ++ '.' :: s.drop (p + 1) = s ∧ p < s.length := by
  intro s
  induction s with
  | nil => intro p h; simp [rfindDot] at h
  | cons c rest ih =>
    intro p h
    unfold rfindDot at h
    cases hr : rfindDot rest with
    | some i =>
      rw [hr] at h
      simp only [Option.some.injEq] at h
      subst h
      obtain ⟨hsplit, hlt⟩ := ih hr
      constructor
      · simpa [List.take, List.drop] using congrArg (c :: ·) hsplit
      · simpa using Nat.succ_lt_succ hlt
    | none =>
      rw [hr] at h
      by_cases hc : c = '.'
      · rw [if_pos hc] at h
        injection h with h0
        subst h0
        simp [hc]
      · rw [if_neg hc] at h
        simp at h

/-- A member of a list of naturals is bounded by `listMax`. -/
lemma le_listMax_of_mem {l : List Nat} {a : Nat} (h : a ∈ l) : a ≤ listMax l := by
  induction l with
  | nil => cases h
  | cons b t ih =>
    rcases List.mem_cons.mp h with rfl | hm
    · exact le_max_left _ _
    · exact le_trans (ih hm) (le_max_right _ _)

/-- Pointwise bounds on summands give a bound on mapped sums. -/
lemma sum_map_le_sum_map (g h : Char → Nat) (hle : ∀ c, g c ≤ h c) (l : Str) :
    (l.map g).sum ≤ (l.map h).sum := by
  induction l with
  | nil => simp
  | cons c t ih => simpa using Nat.add_le_add (hle c) ih

/-- The gate always prints at least one prompt. -/
lemma wait_prompts_ne_nil (l : List Str) : (wait_accepting_prompt l).2 ≠ [] := by
  cases l with
  | nil => simp [wait_accepting_prompt]
  | cons a t =>
    unfold wait_accepting_prompt
    dsimp only
    split
    · simp
    · split <;> simp

/-- Membership in the six CJK ranges, spelled out as the claim lists them. -/
def isWideCJK (c : Char) : Prop :=
  (0x4E00 ≤ c.toNat ∧ c.toNat ≤ 0x9FFF) ∨ (0x3400 ≤ c.toNat ∧ c.toNat ≤ 0x4DBF) ∨
  (0x20000 ≤ c.toNat ∧ c.toNat ≤ 0x2A6DF) ∨ (0x2A700 ≤ c.toNat ∧ c.toNat ≤ 0x2EE5F) ∨
  (0x30000 ≤ c.toNat ∧ c.toNat ≤ 0x323AF) ∨ (0xF900 ≤ c.toNat ∧ c.toNat ≤ 0xFAFF)

instance : DecidablePred isWideCJK := fun c => by unfold isWideCJK; infer_instance

/-- The source's range scan agrees with the spelled-out six-range predicate. -/
lemma inChineseRange_eq (c : Char) : inChineseRange c = decide (isWideCJK c) := by
  unfold inChineseRange CHINESE_UNICODE_RANGE isWideCJK
  simp only [List.any_cons, List.any_nil, Bool.or_false]
  rw [Bool.eq_iff_iff]
  simp [Bool.or_eq_true, decide_eq_true_eq]

/-- The per-character offset is 1 on a CJK-range character and 0 elsewhere:
the leading ASCII test is redundant because every range starts above 0x7F. -/
lemma chineseCharOffset_eq (c : Char) :
    chineseCharOffset c = if isWideCJK c then 1 else 0 := by
  unfold chineseCharOffset
  rw [inChineseRange_eq]
  by_cases hw : isWideCJK c
  · have hnascii : ¬ c.toNat ≤ 0x7F := by unfold isWideCJK at hw; omega
    rw [if_neg hnascii, if_pos (decide_eq_true hw), if_pos hw]
  · rw [if_neg hw]
    by_cases ha : c.toNat ≤ 0x7F
    · rw [if_pos ha]
    · rw [if_neg ha, if_neg (by simp [hw])]

/-- Summing the per-character offsets counts the CJK-range characters. -/
lemma offset_sum_eq_countP (l : Str) :
    (l.map chineseCharOffset).sum = l.countP (fun c => decide (isWideCJK c)) := by
  induction l with
  | nil => simp
  | cons c t ih =>
    rw [List.map_cons, List.sum_cons, List.countP_cons, ih, chineseCharOffset_eq]
    by_cases hw : isWideCJK c
    · simp [hw, Nat.add_comm]
    · simp [hw]

/-- The per-character offset never exceeds 1. -/
lemma chineseCharOffset_le_one (c : Char) : chineseCharOffset c ≤ 1 := by
  unfold chineseCharOffset
  repeat' split
  all_goals omega

/-- A string matching `^[nN]$` does not match `^[yY]?$`. -/
lemma no_not_yes {t : Str} (h : matchesNoRegex t = true) : matchesYesRegex t = false := by
  unfold matchesNoRegex at h
  rcases Bool.or_eq_true _ _ |>.mp h with h1 | h1 <;>
    · rw [decide_eq_true_eq] at h1
      subst h1
      decide

/-- A string matching `^[yY]?$` does not match `^[nN]$`. -/
lemma yes_not_no {t : Str} (h : matchesYesRegex t = true) : matchesNoRegex t = false := by
  unfold matchesYesRegex at h
  rcases Bool.or_eq_true _ _ |>.mp h with h1 | h1
  · rcases Bool.or_eq_true _ _ |>.mp h1 with h2 | h2 <;>
      · rw [decide_eq_true_eq] at h2
        subst h2
        decide
  · rw [decide_eq_true_eq] at h1
    subst h1
    decide

/-- Unfolding equation for the gate on a non-empty input stream. -/
lemma wait_cons (line : Str) (rest : List Str) :
    wait_accepting_prompt (line :: rest) =
      if matchesYesRegex (rustTrim line) then (true, [promptStr])
      else if matchesNoRegex (rustTrim line) then (false, [promptStr])
      else ((wait_accepting_prompt rest).1, promptStr :: (wait_accepting_prompt rest).2) :=
  rfl

/-- Column-width facts established by `RayFileList::from`: the input
column width has floor 3 and dominates every entry's full length. -/
lemma fromNames_bounds {input : List Str} {tf : Str} {tsl : Nat} {b : RayFileList}
    (h : RayFileList.fromNames input tf tsl = some b) :
    3 ≤ b.max_len_input ∧ ∀ f ∈ b.file_list, f.full_len ≤ b.max_len_input := by
  unfold RayFileList.fromNames at h
  rcases hm : input.mapM RayFile.fromName with _ | fl
  · rw [hm] at h; exact absurd h (by simp)
  · rw [hm] at h
    dsimp only at h
    by_cases hnil : fl = []
    · rw [if_pos hnil] at h; simp at h
    · rw [if_neg hnil] at h
      injection h with h
      subst h
      refine ⟨le_max_left _ _, fun f hf => ?_⟩

      exact le_trans (le_listMax_of_mem (List.mem_map_of_mem _ hf)) (le_max_right _ _)

/-- The wide-character offset of a base name never exceeds its byte length. -/
lemma offset_le_utf8Len (f : RayFile) :
    f.get_chinese_length_offset_value ≤ utf8Len f.f_name :=
  sum_map_le_sum_map _ _
    (fun c => le_trans (chineseCharOffset_le_one c) (one_le_utf8CharLen c)) _

/-! ## Claim theorems -/

/-- C7: every input name beginning with `.` (and holding no directory
separator) is parsed with an empty extension and the whole original name
as its base name. -/
theorem C7_dotfile_whole_name (s : Str) (h1 : '/' ∉ s) (h2 : s.head? = some '.') :
    RayFile.fromName s = some ⟨s, []⟩ := by
  unfold RayFile.fromName
  rw [if_neg h1, if_pos h2]

/-- Witness for C7 at the concrete dotfile name `.bashrc`. -/
theorem C7_dotfile_whole_name_witness :
    RayFile.fromName ".bashrc".toList = some ⟨".bashrc".toList, []⟩ :=
  C7_dotfile_whole_name _ (by decide) (by decide)

/-- C8: the wide-character offset counts exactly the characters of the base
name lying in one of the six CJK ranges; an all-ASCII base name has offset
0, and a base name made only of characters in [0x4E00, 0x9FFF] has offset
equal to its character count. -/
theorem C8_offset_counts_cjk (f : RayFile) :
    f.get_chinese_length_offset_value = f.f_name.countP (fun c => decide (isWideCJK c)) ∧
    ((∀ c ∈ f.f_name, c.toNat ≤ 0x7F) → f.get_chinese_length_offset_value = 0) ∧
    ((∀ c ∈ f.f_name, 0x4E00 ≤ c.toNat ∧ c.toNat ≤ 0x9FFF) →
      f.get_chinese_length_offset_value = f.f_name.length) := by
  refine ⟨offset_sum_eq_countP f.f_name, fun ha => ?_, fun hw => ?_⟩
  · unfold RayFile.get_chinese_length_offset_value
    rw [offset_sum_eq_countP]
    rw [List.countP_eq_zero]
    intro c hc
    have := ha c hc
    simp only [decide_eq_true_eq]
    unfold isWideCJK
    omega
  · unfold RayFile.get_chinese_length_offset_value
    rw [offset_sum_eq_countP]
    rw [List.countP_eq_length]
    intro c hc
    simp only [decide_eq_true_eq]
    exact Or.inl (hw c hc)

/-- Witness for C8 at the concrete base name `报告`: both characters lie
in [0x4E00, 0x9FFF], so the offset equals the character count, 2. -/
theorem C8_offset_counts_cjk_witness :
    RayFile.get_chinese_length_offset_value ⟨"报告".toList, []⟩ = ("报告".toList).length :=
  (C8_offset_counts_cjk ⟨"报告".toList, []⟩).2.2 (by decide)

/-- C9: under the documented precondition — no directory separator, and
either a leading dot or at least one dot — `RayFile::from` succeeds, so
the `unwrap` that assumes a dot exists is never reached. -/
theorem C9_no_dot_unwrap_unreachable (s : Str) (h1 : '/' ∉ s)
    (h2 : s.head? = some '.' ∨ '.' ∈ s) :
    (RayFile.fromName s).isSome = true := by
  unfold RayFile.fromName
  rw [if_neg h1]
  by_cases hd : s.head? = some '.'
  · rw [if_pos hd]; rfl
  · rw [if_neg hd]
    rcases h2 with h2 | h2
    · exact absurd h2 hd
    · cases hr : rfindDot s with
      | none => exact absurd h2 (not_mem_of_rfindDot_eq_none hr)
      | some p => simp [hr]

/-- Witness for C9 at the concrete name `a.txt`. -/
theorem C9_no_dot_unwrap_unreachable_witness :
    (RayFile.fromName "a.txt".toList).isSome = true :=
  C9_no_dot_unwrap_unreachable "a.txt".toList (by decide) (Or.inr (by decide))

/-- C1 counterexample: the name `a.` satisfies the claim's precondition
(no directory separator, no leading dot, at least one dot), yet rendering
the constructed entry yields `a`, not the original `a.` — the trailing dot
is lost because the extension is empty. -/
theorem C1_roundtrip_counterexample :
    '/' ∉ "a.".toList ∧ ("a.".toList).head? ≠ some '.' ∧ '.' ∈ "a.".toList ∧
    (RayFile.fromName "a.".toList).map RayFile.toDisplay ≠ some ("a.".toList) := by
  decide

/-- C1 amended: for every name with no directory separator, no leading
dot, at least one dot, and not ending in a dot, constructing the entry by
splitting on the last dot and rendering its display name reproduces the
original name exactly. -/
theorem C1_roundtrip (s : Str) (h1 : '/' ∉ s) (h2 : s.head? ≠ some '.')
    (h3 : '.' ∈ s) (h4 : s.getLast? ≠ some '.') :
    (RayFile.fromName s).map RayFile.toDisplay = some s := by
  unfold RayFile.fromName
  rw [if_neg h1, if_neg h2]
  cases hr : rfindDot s with
  | none => exact absurd h3 (not_mem_of_rfindDot_eq_none hr)
  | some p =>
    obtain ⟨hsplit, _⟩ := rfindDot_split hr
    have hne : s.drop (p + 1) ≠ [] := by
      intro hnil
      rw [hnil] at hsplit
      exact h4 (hsplit ▸ List.getLast?_concat _)
    have hd : RayFile.toDisplay ⟨s.take p, s.drop (p + 1)⟩ = s := by
      unfold RayFile.toDisplay
      dsimp only
      rw [if_neg hne]
      exact hsplit
    simp [hd]

/-- Witness for the amended C1 at the concrete name `a.txt`. -/
theorem C1_roundtrip_witness :
    (RayFile.fromName "a.txt".toList).map RayFile.toDisplay = some ("a.txt".toList) :=
  C1_roundtrip "a.txt".toList (by decide) (by decide) (by decide) (by decide)

/-- C2 counterexample: the entry built from `报告.pdf` has full display
length 10 (UTF-8 bytes: 6 for the two CJK characters, 1 for the dot, 3
for `pdf`), not the claimed character count 5. -/
theorem C2_full_len_counterexample :
    (RayFile.fromName "报告.pdf".toList).map RayFile.full_len ≠ some 5 ∧
    (RayFile.fromName "报告.pdf".toList).map RayFile.full_len = some 10 := by
  decide

/-- C2 amended: the full display length used for column sizing is the
UTF-8 byte length of the rendered display name — the base name's byte
count plus, when the extension is non-empty, 1 for the dot plus the
extension's byte count; for the entry built from `报告.pdf` it is 10. -/
theorem C2_full_len_bytes :
    (∀ f : RayFile, f.full_len = utf8Len f.toDisplay) ∧
    (RayFile.fromName "报告.pdf".toList).map RayFile.full_len = some 10 := by
  constructor
  · intro f
    unfold RayFile.full_len RayFile.toDisplay
    by_cases he : f.f_ext = []
    · rw [if_pos he, if_pos he]
      omega
    · rw [if_neg he, if_neg he]
      rw [show ('.' :: f.f_ext : Str) = ['.'] ++ f.f_ext from rfl, ← List.append_assoc,
        utf8Len_append, utf8Len_append]
      have h1 : utf8Len ['.'] = 1 := rfl
      omega
  · decide

/-- C6: for every successfully constructed batch, the input column width
is at least 3 and at least every entry's full display length; the widths
are computed once at construction and the batch carries no mutating
operation, so the bound holds for its whole lifetime. -/
theorem C6_input_column_width (input : List Str) (tf : Str) (tsl : Nat)
    (b : RayFileList) (h : RayFileList.fromNames input tf tsl = some b) :
    3 ≤ b.max_len_input ∧ ∀ f ∈ b.file_list, f.full_len ≤ b.max_len_input :=
  fromNames_bounds h

/-- Witness for C6 at the concrete batch built from `a.txt`. -/
theorem C6_input_column_width_witness :
    3 ≤ (5 : Nat) ∧ RayFile.full_len ⟨"a".toList, "txt".toList⟩ ≤ 5 :=
  ⟨(C6_input_column_width ["a.txt".toList] ['F'] 17
      ⟨[⟨"a".toList, "txt".toList⟩], ['F'], 5, 21⟩ (by decide)).1,
    (C6_input_column_width ["a.txt".toList] ['F'] 17
      ⟨[⟨"a".toList, "txt".toList⟩], ['F'], 5, 21⟩ (by decide)).2
      ⟨"a".toList, "txt".toList⟩ (by decide)⟩

/-- C10: in every constructed batch the width subtraction of
`print_renaming_operations` cannot underflow: each entry's wide-character
offset is at most its base name's stored (byte) length, which is at most
its full display length, which is at most the input column width. -/
theorem C10_no_width_underflow (input : List Str) (tf : Str) (tsl : Nat)
    (b : RayFileList) (h : RayFileList.fromNames input tf tsl = some b) :
    ∀ f ∈ b.file_list,
      f.get_chinese_length_offset_value ≤ utf8Len f.f_name ∧
      utf8Len f.f_name ≤ f.full_len ∧
      f.full_len ≤ b.max_len_input := by
  intro f hf
  refine ⟨offset_le_utf8Len f, ?_, (fromNames_bounds h).2 f hf⟩
  unfold RayFile.full_len
  omega

/-- Witness for C10 at the concrete batch built from `报告.pdf`. -/
theorem C10_no_width_underflow_witness :
    RayFile.get_chinese_length_offset_value ⟨"报告".toList, "pdf".toList⟩ ≤
      utf8Len ("报告".toList) ∧
    utf8Len ("报告".toList) ≤ RayFile.full_len ⟨"报告".toList, "pdf".toList⟩ ∧
    RayFile.full_len ⟨"报告".toList, "pdf".toList⟩ ≤ 10 :=
  C10_no_width_underflow ["报告.pdf".toList] ['F'] 17
    ⟨[⟨"报告".toList, "pdf".toList⟩], ['F'], 10, 21⟩ (by decide)
    ⟨"报告".toList, "pdf".toList⟩ (by decide)

/-- C3: computing the renamed target list is a pure map over the stored
entries — the batch is read through `&self` and left unchanged — and the
result has the same length and order, with each target's base name the
entry's formatted modification time and each target's extension copied
unchanged from the corresponding source entry. -/
theorem C3_renamed_list_parallel (mtime : Str → Nat) (format : Str → Nat → Str)
    (b : RayFileList) :
    (b.get_renamed_file_list mtime format).length = b.file_list.length ∧
    ∀ (i : Nat) (f : RayFile), b.file_list[i]? = some f →
      (b.get_renamed_file_list mtime format)[i]? =
        some (RayFile.mk (format b.time_format (mtime f.toDisplay)) f.f_ext) := by
  constructor
  · simp [RayFileList.get_renamed_file_list]
  · intro i f hf
    simp [RayFileList.get_renamed_file_list, List.getElem?_map, hf,
      RayFile.get_renamed_instance]

/-- Witness for C3 at a one-entry batch with concrete time and formatting
functions. -/
theorem C3_renamed_list_parallel_witness :
    (RayFileList.get_renamed_file_list (fun _ => 2) (fun _ n => List.replicate n 'x')
        ⟨[⟨"a".toList, "txt".toList⟩], ['%'], 5, 5⟩)[0]? =
      some ⟨List.replicate 2 'x', "txt".toList⟩ :=
  (C3_renamed_list_parallel (fun _ => 2) (fun _ n => List.replicate n 'x')
      ⟨[⟨"a".toList, "txt".toList⟩], ['%'], 5, 5⟩).2 0 ⟨"a".toList, "txt".toList⟩ rfl

/-- C4: with the confirmation gate enabled, when the gate classifies the
operator's answer as a decline, no rename operation is performed and the
only output after the table and the gate's prompts is the single line
`Nothing done.`. -/
theorem C4_decline_does_nothing (mtime : Str → Nat) (format : Str → Nat → Str)
    (b : RayFileList) (lines : List Str)
    (h : (wait_accepting_prompt lines).1 = false) :
    (b.rename_with_modification_time mtime format true lines).renames = [] ∧
    (b.rename_with_modification_time mtime format true lines).output =
      b.print_renaming_header ++
        b.print_renaming_operations (b.get_renamed_file_list mtime format) ++
        (wait_accepting_prompt lines).2 ++ [nothingDoneStr] := by
  unfold RayFileList.rename_with_modification_time
  simp [h, List.append_assoc]

/-- Witness for C4: a one-entry batch declined with the single input line
`n` performs no renames. -/
theorem C4_decline_does_nothing_witness :
    (RayFileList.rename_with_modification_time (fun _ => 2)
        (fun _ n => List.replicate n 'x')
        ⟨[⟨"a".toList, "txt".toList⟩], ['%'], 5, 5⟩ true [['n']]).renames = [] :=
  (C4_decline_does_nothing (fun _ => 2) (fun _ n => List.replicate n 'x')
      ⟨[⟨"a".toList, "txt".toList⟩], ['%'], 5, 5⟩ [['n']] (by decide)).1

/-- C5: one gate iteration classifies its line after trimming — it
accepts, consuming the line with a single prompt, exactly when the
trimmed line matches `^[yY]?$` (so the empty answer accepts); it
declines, likewise with a single prompt, exactly when the trimmed line
matches `^[nN]$`; and on any other line it prints a fresh prompt and
continues with the remaining input without terminating. -/
theorem C5_gate_classification (line : Str) (rest : List Str) :
    (wait_accepting_prompt (line :: rest) = (true, [promptStr]) ↔
      matchesYesRegex (rustTrim line) = true) ∧
    (wait_accepting_prompt (line :: rest) = (false, [promptStr]) ↔
      matchesNoRegex (rustTrim line) = true) ∧
    (matchesYesRegex (rustTrim line) = false → matchesNoRegex (rustTrim line) = false →
      wait_accepting_prompt (line :: rest) =
        ((wait_accepting_prompt rest).1, promptStr :: (wait_accepting_prompt rest).2)) := by
  by_cases hy : matchesYesRegex (rustTrim line) = true
  · rw [wait_cons, if_pos hy]
    refine ⟨by simp [hy], ?_, fun h1 _ => absurd hy (by simp [h1])⟩
    rw [yes_not_no hy]
    simp
  · have hy' : matchesYesRegex (rustTrim line) = false := by
      cases hmy : matchesYesRegex (rustTrim line)
      · rfl
      · exact absurd hmy hy
    by_cases hn : matchesNoRegex (rustTrim line) = true
    · rw [wait_cons, if_neg (by simp [hy']), if_pos hn]
      exact ⟨by simp [hy'], by simp [hn], fun _ h2 => absurd hn (by simp [h2])⟩
    · have hn' : matchesNoRegex (rustTrim line) = false := by
        cases hmn : matchesNoRegex (rustTrim line)
        · rfl
        · exact absurd hmn hn
      rw [wait_cons, if_neg (by simp [hy']), if_neg (by simp [hn'])]
      refine ⟨⟨fun heq => ?_, fun h => by rw [h] at hy'; simp at hy'⟩,
        ⟨fun heq => ?_, fun h => by rw [h] at hn'; simp at hn'⟩, fun _ _ => rfl⟩
      · have h2 := congrArg Prod.snd heq
        simp only [List.cons.injEq] at h2
        exact absurd h2.2 (wait_prompts_ne_nil rest)
      · have h2 := congrArg Prod.snd heq
        simp only [List.cons.injEq] at h2
        exact absurd h2.2 (wait_prompts_ne_nil rest)

/-- Witness for C5: the line `z` matches neither regex, so the gate
re-prompts and continues with the rest of the input. -/
theorem C5_gate_classification_witness :
    wait_accepting_prompt [['z']] =
      ((wait_accepting_prompt []).1, promptStr :: (wait_accepting_prompt []).2) :=
  (C5_gate_classification ['z'] []).2.2 (by decide) (by decide)

end RenameModTime
